import Mathlib

/-!
Shallow embedding of the `laravel-docs-mcp` repository (Rust) for verifying
its natural-language specification.

Strings are modelled as `List Char`; Rust's `str::len()` is the UTF-8 byte
count, modelled by `byteLen`, while `List.length` is the character count.
External collaborators (the embedding model, SQLite storage, serde JSON,
MD5) are modelled as abstract parameters, following the spec's component
boundaries.
-/

abbrev Str := List Char

/-- UTF-8 byte length of a string, Rust's `str::len()`. -/
def byteLen (s : Str) : Nat := (s.map Char.utf8Size).sum

namespace TextSplitter

/-- Embedding of `RecursiveCharacterTextSplitter` (src/text_splitter.rs lines 2-11). -/
structure Splitter where
  separators : List Str
  chunk_size : Nat
  chunk_overlap : Nat
  keep_separator : Bool
deriving Repr, DecidableEq

/-- Default separator list of `RecursiveCharacterTextSplitter::new` (lines 17-27). -/
def defaultSeparators : List Str :=
  [['\n', '\n', '\n'], ['\n', '\n'], ['\n'],
   ['.', ' '], ['!', ' '], ['?', ' '], [',', ' '], [' '], []]

/-- Embedding of `RecursiveCharacterTextSplitter::new` (lines 15-32). -/
def new : Splitter :=
  { separators := defaultSeparators
    chunk_size := 400
    chunk_overlap := 20
    keep_separator := true }

/-- Setter `with_separators` (lines 35-38). -/
def Splitter.with_separators (sp : Splitter) (seps : List Str) : Splitter :=
  { sp with separators := seps }

/-- Setter `with_chunk_size` (lines 41-44). -/
def Splitter.with_chunk_size (sp : Splitter) (n : Nat) : Splitter :=
  { sp with chunk_size := n }

/-- Setter `with_chunk_overlap` (lines 47-50): stores the value with no validation. -/
def Splitter.with_chunk_overlap (sp : Splitter) (n : Nat) : Splitter :=
  { sp with chunk_overlap := n }

/-- Setter `with_keep_separator` (lines 53-56). -/
def Splitter.with_keep_separator (sp : Splitter) (b : Bool) : Splitter :=
  { sp with keep_separator := b }

/-- Fuel-indexed worker for Rust `str::split`; the fuel dominates the text
length, so the `0, _ :: _` case is unreachable. Structural recursion on the
fuel keeps the definition kernel-reducible. -/
def splitOnFuel (s : Char) (ss : Str) : Nat → Str → List Str
  | _, [] => [[]]
  | 0, _ :: _ => [[]]
  | fuel + 1, c :: rest =>
    if (s :: ss).isPrefixOf (c :: rest) then
      [] :: splitOnFuel s ss fuel (rest.drop ss.length)
    else
      match splitOnFuel s ss fuel rest with
      | [] => [[c]]
      | h :: t => (c :: h) :: t

/-- Rust `str::split` on a non-empty separator `s :: ss`: leftmost,
non-overlapping matches, empty pieces kept. -/
def splitOnCore (s : Char) (ss : Str) (text : Str) : List Str :=
  splitOnFuel s ss text.length text

/-- Overlap seed: `last_chunk[overlap_start_byte..]` (lines 111-121 and 174-184).
The byte index is taken from `char_indices`, so the slice drops
`length - overlap` characters (saturating), i.e. keeps the trailing
`overlap` characters. -/
def seedOf (sp : Splitter) (chunk : Str) : Str :=
  if 0 < sp.chunk_overlap then chunk.drop (chunk.length - sp.chunk_overlap) else []

/-- One iteration of the merge loop of `split_text_with_separators`
(lines 96-129), acting on the state `(chunks, current_chunk)`. `sws` is
`split_with_separator`, the piece with the separator already re-attached. -/
def mergeStep (sp : Splitter) (st : List Str × Str) (sws : Str) : List Str × Str :=
  if st.2 ≠ [] ∧ sp.chunk_size < byteLen st.2 + byteLen sws then
    (st.1 ++ [st.2], seedOf sp st.2 ++ sws)
  else
    (st.1, st.2 ++ sws)

/-- Re-attach the separator to every piece after the first when
`keep_separator` is set (lines 96-102). -/
def withSeps (sp : Splitter) (sep : Str) (splits : List Str) : List Str :=
  match splits with
  | [] => []
  | h :: t => h :: t.map (fun s => if sp.keep_separator then sep ++ s else s)

/-- End of both accumulation loops (lines 131-134 and 192-195): push the
final chunk if it is non-empty. -/
def finishPass (st : List Str × Str) : List Str :=
  if st.2 ≠ [] then st.1 ++ [st.2] else st.1

/-- The merge phase of `split_text_with_separators` (lines 92-134):
fold the pieces through `mergeStep`, then push the final non-empty chunk. -/
def mergeSplits (sp : Splitter) (sep : Str) (splits : List Str) : List Str :=
  finishPass ((withSeps sp sep splits).foldl (mergeStep sp) ([], []))

/-- One iteration of `split_by_character` (lines 169-190): emit the buffer
once its byte length reaches `chunk_size`, seed the next buffer with the
trailing `chunk_overlap` characters, then push the character. -/
def charStep (sp : Splitter) (st : List Str × Str) (c : Char) : List Str × Str :=
  if sp.chunk_size ≤ byteLen st.2 then
    (st.1 ++ [st.2], seedOf sp st.2 ++ [c])
  else
    (st.1, st.2 ++ [c])

/-- Embedding of `split_by_character` (lines 165-198). -/
def split_by_character (sp : Splitter) (text : Str) : List Str :=
  finishPass (text.foldl (charStep sp) ([], []))

/-- Re-splitting pass over the merged chunks (lines 142-150): keep chunks
within the size bound, re-segment oversized ones with `next` (the recursion
on the remaining separators), and flatten. -/
def reSplit (next : Str → List Str) (size : Nat) : List Str → List Str
  | [] => []
  | c :: cs => (if byteLen c ≤ size then [c] else next c) ++ reSplit next size cs

/-- Body of `split_text_with_separators` for a non-empty separator list;
`next` is the recursive call on the remaining separators. -/
def stwsBody (sp : Splitter) (sep : Str) (next : Str → List Str) (text : Str) :
    List Str :=
  if byteLen text ≤ sp.chunk_size then [text]
  else
    match sep with
    | [] => split_by_character sp text
    | s :: ss =>
      if (splitOnCore s ss text).length ≤ 1 then next text
      else
        if mergeSplits sp (s :: ss) (splitOnCore s ss text) ≠ [] ∧
            ∀ c ∈ mergeSplits sp (s :: ss) (splitOnCore s ss text),
              byteLen c ≤ sp.chunk_size then
          mergeSplits sp (s :: ss) (splitOnCore s ss text)
        else
          if reSplit next sp.chunk_size
                (mergeSplits sp (s :: ss) (splitOnCore s ss text)) = [] ∨
              ∃ c ∈ reSplit next sp.chunk_size
                (mergeSplits sp (s :: ss) (splitOnCore s ss text)),
                sp.chunk_size < byteLen c then
            next text
          else reSplit next sp.chunk_size (mergeSplits sp (s :: ss) (splitOnCore s ss text))

/-- Embedding of `split_text_with_separators` (lines 69-162), by structural recursion on
the separator list (every recursive call drops the head separator). -/
def stws (sp : Splitter) : List Str → Str → List Str
  | [] => fun text => [text]
  | sep :: rest => stwsBody sp sep (stws sp rest)

/-- Embedding of `split_text` (lines 59-66). -/
def split_text (sp : Splitter) (text : Str) : List Str :=
  if byteLen text ≤ sp.chunk_size then [text]
  else stws sp sp.separators text

/-- Join a list of pieces re-inserting the separator between consecutive
pieces: the inverse of Rust `str::split`. -/
def joinSep (sep : Str) : List Str → Str
  | [] => []
  | [x] => x
  | x :: y :: t => x ++ sep ++ joinSep sep (y :: t)

/-- Predicate: `a` is a contiguous prefix of `b`. -/
def isPre (a b : Str) : Prop := ∃ t, a ++ t = b

/-- Predicate: `a` is a contiguous suffix of `b`. -/
def isSuf (a b : Str) : Prop := ∃ t, t ++ a = b

/-- Seed relation between consecutive chunks of one merge or character
pass: the overlap seed of the earlier chunk is a prefix of the later
chunk. -/
def SeedRel (sp : Splitter) (a b : Str) : Prop := isPre (seedOf sp a) b

/-- The adjacent-chunk overlap property of claim C7 at overlap `k`: when
both chunks hold at least `k` characters, the trailing `k` characters of
the earlier chunk equal the leading `k` characters of the later chunk. -/
def OverlapProp (k : Nat) (a b : Str) : Prop :=
  k ≤ a.length → k ≤ b.length → a.drop (a.length - k) = b.take k

/-- Invariants tying a splitter output to its input text: adjacent chunks
satisfy the overlap property, the first chunk is a prefix and the last
chunk a suffix of the input, and the output is non-empty. -/
def goodOut (k : Nat) (text : Str) (out : List Str) : Prop :=
  List.Chain' (OverlapProp k) out ∧
  (∀ h ∈ out.head?, isPre h text) ∧
  (∀ l ∈ out.getLast?, isSuf l text) ∧
  out ≠ []

/-- Loop invariant of the merge and character passes, over the state
`(chunks, current_chunk)` and the input consumed so far. -/
def passInv (sp : Splitter) (consumed : Str) (st : List Str × Str) : Prop :=
  List.Chain' (SeedRel sp) st.1 ∧
  (st.1 = [] → st.2 = consumed) ∧
  (∀ l ∈ st.1.getLast?, SeedRel sp l st.2) ∧
  (st.1 ≠ [] → st.2 ≠ []) ∧
  (∀ h ∈ st.1.head?, isPre h consumed) ∧
  isSuf st.2 consumed

end TextSplitter

namespace Chunker

open TextSplitter

/-- Rust `char::is_whitespace` (the Unicode White_Space property), used by
`str::trim` in `process_file` (src/chunker.rs line 93). -/
def isRustWhitespace (c : Char) : Bool :=
  c ∈ ['\t', '\n', Char.ofNat 0x0b, Char.ofNat 0x0c, '\r', ' ',
       Char.ofNat 0x85, Char.ofNat 0xa0, Char.ofNat 0x1680,
       Char.ofNat 0x2000, Char.ofNat 0x2001, Char.ofNat 0x2002, Char.ofNat 0x2003,
       Char.ofNat 0x2004, Char.ofNat 0x2005, Char.ofNat 0x2006, Char.ofNat 0x2007,
       Char.ofNat 0x2008, Char.ofNat 0x2009, Char.ofNat 0x200a,
       Char.ofNat 0x2028, Char.ofNat 0x2029, Char.ofNat 0x202f,
       Char.ofNat 0x205f, Char.ofNat 0x3000]

/-- Rust `str::trim`: remove leading and trailing whitespace. -/
def rustTrim (s : Str) : Str :=
  ((s.dropWhile isRustWhitespace).reverse.dropWhile isRustWhitespace).reverse

/-- The keep condition of `process_file` (src/chunker.rs line 93):
`!chunk.trim().is_empty()`. -/
def nonBlank (s : Str) : Bool := !(rustTrim s).isEmpty

/-- Embedding of `TextChunk` (src/chunker.rs lines 12-19). -/
structure TextChunk where
  id : String
  text : Str
  source : String
deriving Repr, DecidableEq

/-- The splitter built by `TextChunker::new` (src/chunker.rs lines 56-58):
default separators, caller-supplied size and overlap. -/
def chunkerSplitter (chunk_size chunk_overlap : Nat) : Splitter :=
  (new.with_chunk_size chunk_size).with_chunk_overlap chunk_overlap

/-- Chunk id `format!("{}-{}", uid, i)` (src/chunker.rs line 98). -/
def mkId (uid : String) (i : Nat) : String :=
  uid ++ "-" ++ Nat.repr i

/-- Embedding of `TextChunker::process_file` (src/chunker.rs lines 78-107) after the file
read: enumerate the split chunks, skip those whose trimmed text is empty,
and build a `TextChunk` from the ORIGINAL enumeration index. The MD5 path
hash `uid` and the source path are abstract inputs (external collaborators). -/
def process_file (sp : Splitter) (uid : String) (source : String) (content : Str) :
    List TextChunk :=
  (split_text sp content).enum.filterMap fun p =>
    if rustTrim p.2 = [] then none
    else some { id := mkId uid p.1, text := p.2, source := source }

end Chunker

namespace Vectorizer

/-- Constant `CHUNK_SIZE` (src/vectorizer.rs line 250). -/
def CHUNK_SIZE : Nat := 500

/-- Fuel-indexed worker for Rust `slice::chunks (m + 1)`: successive groups
of at most `m + 1` elements, in order, last group possibly smaller. The
fuel dominates the list length, so the `0, _ :: _` case is unreachable. -/
def chunksFuel (m : Nat) : Nat → List α → List (List α)
  | _, [] => []
  | 0, _ :: _ => []
  | fuel + 1, x :: xs => (x :: xs).take (m + 1) :: chunksFuel m fuel ((x :: xs).drop (m + 1))

/-- Partition `texts.chunks(CHUNK_SIZE)` as used by `store_docs` (line 310). -/
def batches (texts : List α) : List (List α) := chunksFuel 499 texts.length texts

/-- Global id assignment of `store_docs` (line 316):
`local_index + batch_index * CHUNK_SIZE + 1`. -/
def globalId (batchIdx localIdx : Nat) : Nat :=
  localIdx + batchIdx * CHUNK_SIZE + 1

/-- The `(global_id, text)` pairs built by one iteration of the `store_docs`
loop (lines 310-319): the batch is zipped against its embeddings, so an
embedding list of a different length truncates the pair list. -/
def batchIds (embedLen : Nat) (batchIdx : Nat) (batch : List α) : List (Nat × α) :=
  (batch.enum.take (min batch.length embedLen)).map fun p =>
    (globalId batchIdx p.1, p.2)

/-- All global ids assigned by `store_docs` over the whole text sequence,
given the per-batch embedding counts produced by the embedding collaborator
(`embedLen b` is the number of vectors returned for batch `b`). -/
def storeDocsIds (embedLen : List α → Nat) (texts : List α) : List Nat :=
  ((batches texts).enum.flatMap fun p => batchIds (embedLen p.2) p.1 p.2).map Prod.fst

/-- Storage state of the two SQLite tables touched by `store_docs`: the
vector table rows and the metadata table rows, as `(global_id, payload)`
lists. -/
structure Store (α : Type) where
  items : List (Nat × α)
  mates : List (Nat × α)
deriving Repr, DecidableEq

/-- Outcome of one primitive external step (an embedding call or one
SQLite transaction commit): `true` = succeeds, `false` = fails or is
interrupted before commit. A failing transaction leaves the store
unchanged (SQLite rolls back), which is the per-call atomicity of
`batch_insert` (lines 234-237: one `execute` inside one transaction). -/
abbrev Schedule := List Bool

/-- Consume the next step outcome of the schedule (missing entries succeed). -/
def nextStep : Schedule → Bool × Schedule
  | [] => (true, [])
  | b :: rest => (b, rest)

/-- One iteration of the `store_docs` loop (lines 310-326) under the fault
model: `embeds` (line 311), then `add_items` (line 324), then `add_mates`
(line 325) — three separate external steps; the two inserts are two
separate transactions. Returns the store reflecting every transaction
committed before the failing step (committed transactions are durable),
a success flag, and the remaining schedule. -/
def storeBatch (st : Store α) (sch : Schedule) (batchIdx : Nat) (batch : List α) :
    Store α × Bool × Schedule :=
  let (okEmbed, sch) := nextStep sch
  if !okEmbed then (st, false, sch)
  else
    let ids := batchIds batch.length batchIdx batch
    let (okItems, sch) := nextStep sch
    if !okItems then (st, false, sch)
    else
      let st := { st with items := st.items ++ ids }
      let (okMates, sch) := nextStep sch
      if !okMates then (st, false, sch)
      else ({ st with mates := st.mates ++ ids }, true, sch)

/-- Loop of `store_docs` over the enumerated batches: the first failing
step aborts (the `?` operator), leaving all previously committed
transactions in place. -/
def storeDocsGo : List (Nat × List α) → Store α → Schedule → Store α × Bool
  | [], st, _ => (st, true)
  | (i, b) :: rest, st, sch =>
    match storeBatch st sch i b with
    | (st', false, _) => (st', false)
    | (st', true, sch') => storeDocsGo rest st' sch'

/-- Embedding of `store_docs` (lines 309-328) under the fault model: returns the final
store state and whether the call returned `Ok`. -/
def store_docs (texts : List α) (sch : Schedule) : Store α × Bool :=
  storeDocsGo ((batches texts).enum) { items := [], mates := [] } sch

/-- Embedding of `Vectorizer::search` (src/vectorizer.rs lines 335-357). The embedding
model and the SQLite similarity search are abstract collaborators; `limit`
defaults to 20 when absent and is truncated to `u32` when given
(`l as u32`, line 339). -/
def search (embed : String → List V) (dbSearch : V → Nat → Except String R)
    (text : String) (limit : Option Nat) : Except String R :=
  let lim : Nat := match limit with
    | some l => l % 2 ^ 32
    | none => 20
  match (embed text).head? with
  | none => .error "Failed to generate embedding for the text"
  | some e => dbSearch e lim

end Vectorizer

namespace Main

/-- Outcome of one MCP tool call: `AppResultWrapper` with either
`CallToolResult::success` carrying content or an `AppError`. -/
inductive ToolOutcome where
  | success (content : String)
  | error (message : String)
deriving Repr, DecidableEq

/-- Document extraction of `get_laravel_context` (src/main.rs lines 182-197):
rows are `(i64, Option<String>)` pairs from `Vectorizer::search`; a row
contributes a document only when its metadata is present AND parses.
`parseText` abstracts the serde collaborator pipeline
`serde_json::from_str` / `get("text")` / `as_str` (`none` = malformed JSON,
no `text` field, or a non-string `text` field). -/
def extractDocuments (parseText : String → Option String)
    (rows : List (Int × Option String)) : List String :=
  rows.filterMap fun r => r.2.bind parseText

/-- Fixed reply of the empty-result branch (src/main.rs line 201). -/
def noResultsText : String :=
  "No relevant Laravel documentation found for the query."

/-- The tail of `get_laravel_context` after a successful search
(src/main.rs lines 182-214): filter the rows, answer the fixed success
message when nothing is left, otherwise serialize the documents
(`Content::json`, abstracted as `toJson`). -/
def toolResult (parseText : String → Option String)
    (toJson : List String → Except String String)
    (rows : List (Int × Option String)) : ToolOutcome :=
  let documents := extractDocuments parseText rows
  if documents.isEmpty then .success noResultsText
  else
    match toJson documents with
    | .ok c => .success c
    | .error e => .error e

/-- Construction log model of `Vectorizer::new` (src/vectorizer.rs lines
254-277): the body unconditionally constructs a fresh embedding model
(`TextEmbedding::try_new`) and opens a fresh storage connection
(`SqliteVector::new`); no cache of any kind is consulted. Each call
appends the collection name it was given to the process-wide log of
constructed handles. -/
def vectorizerNew (log : List String) (name : String) : List String :=
  log ++ [name]

/-- Embedding of `LaravelDocs::new` (src/main.rs lines 135-140): wraps exactly one
fresh `Vectorizer::new` call. -/
def laravelDocsNew (log : List String) (name : String) : List String :=
  vectorizerNew log name

/-- The service factory closure passed to `with_service` (src/main.rs lines
74-82) invoked once per client connection: each invocation calls
`LaravelDocs::new(_, "laravel_docs", 384)`. `serveClients n` is the
construction log after `n` connections. -/
def serveClients : Nat → List String
  | 0 => []
  | n + 1 => laravelDocsNew (serveClients n) "laravel_docs"

end Main

/-- Concrete configuration used by the overlap witnesses: chunk size 20,
overlap 5, default separators. -/
def witnessSplitter : TextSplitter.Splitter :=
  (TextSplitter.new.with_chunk_size 20).with_chunk_overlap 5

/-- Concrete input text used by the overlap witnesses. -/
def witnessText : Str :=
  "This is a text that should be split into multiple chunks with overlap.".toList

/-! ## Basic lemmas about `byteLen` -/

theorem byteLen_cons (c : Char) (s : Str) : byteLen (c :: s) = c.utf8Size + byteLen s := by
  simp [byteLen]

theorem byteLen_append (a b : Str) : byteLen (a ++ b) = byteLen a + byteLen b := by
  simp [byteLen]

theorem length_le_byteLen (s : Str) : s.length ≤ byteLen s := by
  induction s with
  | nil => simp [byteLen]
  | cons c t ih =>
    have hc := Char.utf8Size_pos c
    simp only [List.length_cons, byteLen_cons]
    omega

theorem byteLen_pos (s : Str) (h : s ≠ []) : 0 < byteLen s := by
  cases s with
  | nil => exact absurd rfl h
  | cons c t =>
    have hc := Char.utf8Size_pos c
    simp only [byteLen_cons]
    omega

namespace TextSplitter

/-! ## Non-emptiness of the splitter output -/

theorem foldl_charStep_snd_ne_nil (sp : Splitter) :
    ∀ (cs : Str) (st : List Str × Str), cs ≠ [] → (cs.foldl (charStep sp) st).2 ≠ [] := by
  intro cs
  induction cs with
  | nil => intro st h; exact absurd rfl h
  | cons c cs ih =>
    intro st _
    cases cs with
    | nil =>
      simp only [List.foldl_cons, List.foldl_nil, charStep]
      split <;> simp
    | cons d ds => exact ih _ (by simp)

theorem split_by_character_ne_nil (sp : Splitter) (text : Str) (h : text ≠ []) :
    split_by_character sp text ≠ [] := by
  unfold split_by_character finishPass
  have h2 := foldl_charStep_snd_ne_nil sp text ([], []) h
  simp only [h2, ne_eq, not_false_eq_true, if_true]
  simp

theorem stws_ne_nil (sp : Splitter) : ∀ (seps : List Str) (text : Str), stws sp seps text ≠ [] := by
  intro seps
  induction seps with
  | nil => intro text; simp [stws]
  | cons sep rest ih =>
    intro text
    show stwsBody sp sep (stws sp rest) text ≠ []
    unfold stwsBody
    split
    · simp
    · next hbig =>
      match sep with
      | [] =>
        apply split_by_character_ne_nil
        intro hnil
        subst hnil
        exact hbig (by simp [byteLen])
      | s :: ss =>
        simp only []
        split
        · exact ih text
        · split
          · next hcond => exact hcond.1
          · split
            · exact ih text
            · next hcond =>
              push_neg at hcond
              exact hcond.1

theorem split_text_ne_nil (sp : Splitter) (text : Str) : split_text sp text ≠ [] := by
  unfold split_text
  split
  · simp
  · exact stws_ne_nil sp sp.separators text

end TextSplitter

/-- C10: for every query text, `Vectorizer::search` called with `limit = None`
forwards a top-k limit of exactly 20 to the storage similarity search,
behaving identically to `limit = Some(20)`. -/
theorem claim10_search_none_defaults_to_20 {V R : Type} (embed : String → List V)
    (dbSearch : V → Nat → Except String R) (text : String) :
    Vectorizer.search embed dbSearch text none =
      Vectorizer.search embed dbSearch text (some 20) := by
  have h : (20 : Nat) % 2 ^ 32 = 20 := Nat.mod_eq_of_lt (by norm_num)
  simp [Vectorizer.search, h]

/-- C6 counterexample: a configuration with overlap (10) ≥ max_size (5) is
accepted by `with_chunk_overlap` — the fully-formed splitter is returned with
no `SegmentationConfigError` (no such error exists in the code) — and
`split_text` then runs to completion on it. -/
theorem claim6_counterexample :
    ((TextSplitter.new.with_chunk_size 5).with_chunk_overlap 10).chunk_size ≤
      ((TextSplitter.new.with_chunk_size 5).with_chunk_overlap 10).chunk_overlap ∧
    (TextSplitter.new.with_chunk_size 5).with_chunk_overlap 10 =
      { separators := TextSplitter.defaultSeparators, chunk_size := 5,
        chunk_overlap := 10, keep_separator := true } ∧
    TextSplitter.split_text ((TextSplitter.new.with_chunk_size 5).with_chunk_overlap 10)
        (List.replicate 7 'a') =
      [List.replicate 5 'a', List.replicate 6 'a', List.replicate 7 'a'] := by
  refine ⟨by decide, by decide, ?_⟩
  decide

/-- C6 amended: no configuration-time validation exists. `with_chunk_overlap`
accepts every overlap value — including overlap ≥ max_size — updating only the
`chunk_overlap` field, and `split_text` on any such configuration still
terminates and returns a non-empty chunk list rather than an error. -/
theorem claim6_amended_no_config_validation (sp : TextSplitter.Splitter) (n : Nat) :
    (sp.with_chunk_overlap n).chunk_overlap = n ∧
    (sp.with_chunk_overlap n).chunk_size = sp.chunk_size ∧
    (sp.with_chunk_overlap n).separators = sp.separators ∧
    (sp.with_chunk_overlap n).keep_separator = sp.keep_separator ∧
    ∀ text, TextSplitter.split_text (sp.with_chunk_overlap n) text ≠ [] := by
  refine ⟨rfl, rfl, rfl, rfl, ?_⟩
  intro text
  exact TextSplitter.split_text_ne_nil _ text

/-- C5 counterexample: two client connections both performing their first
access to the collection name "laravel_docs" construct two handles — the
construction log has two entries, not at most one. -/
theorem claim5_counterexample :
    Main.serveClients 2 = ["laravel_docs", "laravel_docs"] ∧
    ¬ (Main.serveClients 2).length ≤ 1 := by
  decide

/-- C5 amended: there is no per-collection cache. Every service
instantiation (one per client connection) calls `LaravelDocs::new`, which
unconditionally constructs a fresh handle: after `n` connections exactly
`n` handles have been constructed, all for the collection name
"laravel_docs". -/
theorem claim5_amended_fresh_handle_per_connection (n : Nat) :
    (Main.serveClients n).length = n ∧
    ∀ s ∈ Main.serveClients n, s = "laravel_docs" := by
  induction n with
  | zero => simp [Main.serveClients]
  | succ m ih =>
    simp only [Main.serveClients, Main.laravelDocsNew, Main.vectorizerNew]
    refine ⟨?_, ?_⟩
    · simp [ih.1]
    · intro s hs
      rcases List.mem_append.mp hs with h | h
      · exact ih.2 s h
      · simpa using h

namespace Vectorizer

/-! ## Batch partitioning and global-id lemmas -/

theorem chunksFuel_irrel (m : Nat) : ∀ (f1 f2 : Nat) (l : List α), l.length ≤ f1 →
    l.length ≤ f2 → chunksFuel m f1 l = chunksFuel m f2 l := by
  intro f1
  induction f1 with
  | zero =>
    intro f2 l h1 _
    have hl : l = [] := List.length_eq_zero.mp (Nat.le_zero.mp h1)
    subst hl
    cases f2 <;> rfl
  | succ g ih =>
    intro f2 l h1 h2
    cases l with
    | nil => cases f2 <;> rfl
    | cons x xs =>
      cases f2 with
      | zero => simp at h2
      | succ g2 =>
        simp only [chunksFuel]
        congr 1
        apply ih
        · simp only [List.length_drop, List.length_cons] at *
          omega
        · simp only [List.length_drop, List.length_cons] at *
          omega

theorem batches_cons (x : α) (xs : List α) :
    batches (x :: xs) = (x :: xs).take 500 :: batches ((x :: xs).drop 500) := by
  unfold batches
  simp only [List.length_cons, chunksFuel]
  congr 1
  apply chunksFuel_irrel
  · simp only [List.length_drop, List.length_cons]
    omega
  · exact le_refl _

theorem batches_flatten (l : List α) : (batches l).flatten = l := by
  generalize hn : l.length = n
  induction n using Nat.strong_induction_on generalizing l with
  | _ n ih =>
    cases l with
    | nil => simp [batches, chunksFuel]
    | cons x xs =>
      rw [batches_cons]
      simp only [List.flatten_cons]
      have hlt : ((x :: xs).drop 500).length < n := by
        subst hn
        simp only [List.length_drop, List.length_cons]
        omega
      rw [ih _ hlt _ rfl, List.take_append_drop]

theorem batchIds_fst (i : Nat) (b : List α) :
    (batchIds b.length i b).map Prod.fst = List.range' (i * 500 + 1) b.length := by
  unfold batchIds globalId CHUNK_SIZE
  rw [min_self, List.take_of_length_le (le_of_eq List.enum_length)]
  rw [List.map_map]
  have h1 : (Prod.fst ∘ fun p : Nat × α => (p.1 + i * 500 + 1, p.2)) =
      (fun j => j + i * 500 + 1) ∘ Prod.fst := rfl
  rw [h1, ← List.map_map, List.enum_map_fst, List.range'_eq_map_range]
  apply List.map_congr_left
  intro j _
  omega

theorem ids_go (l : List α) (i : Nat) :
    (((batches l).enumFrom i).flatMap fun p => List.range' (p.1 * 500 + 1) p.2.length) =
      List.range' (i * 500 + 1) l.length := by
  generalize hn : l.length = n
  induction n using Nat.strong_induction_on generalizing l i with
  | _ n ih =>
    cases l with
    | nil => simp [batches, chunksFuel, ← hn]
    | cons x xs =>
      rw [batches_cons]
      simp only [List.enumFrom_cons, List.flatMap_cons]
      have hlt : ((x :: xs).drop 500).length < n := by
        subst hn
        simp only [List.length_drop, List.length_cons]
        omega
      rw [ih _ hlt _ (i + 1) rfl]
      rcases le_or_lt (xs.length + 1) 500 with hle | hlt2
      · have hdrop : (x :: xs).drop 500 = [] := by
          apply List.drop_eq_nil_of_le
          simp only [List.length_cons]
          omega
        rw [hdrop]
        simp only [List.length_nil, List.range'_zero, List.append_nil, List.length_take,
          List.length_cons, ← hn]
        congr 1
        omega
      · have htk : ((x :: xs).take 500).length = 500 := by
          simp only [List.length_take, List.length_cons]
          omega
        rw [htk]
        have h2 : (i + 1) * 500 + 1 = (i * 500 + 1) + 1 * 500 := by ring
        rw [h2, List.range'_append]
        subst hn
        congr 1
        simp only [List.length_drop, List.length_cons]
        omega

theorem batches_nil_iff (l : List α) : batches l = [] ↔ l = [] := by
  cases l with
  | nil => simp [batches, chunksFuel]
  | cons x xs =>
    rw [batches_cons]
    simp

theorem batches_length_le (l : List α) : ∀ b ∈ batches l, 0 < b.length ∧ b.length ≤ 500 := by
  generalize hn : l.length = n
  induction n using Nat.strong_induction_on generalizing l with
  | _ n ih =>
    cases l with
    | nil => simp [batches, chunksFuel]
    | cons x xs =>
      rw [batches_cons]
      intro b hb
      rcases List.mem_cons.mp hb with h | h
      · subst h
        simp only [List.length_take, List.length_cons]
        omega
      · have hlt : ((x :: xs).drop 500).length < n := by
          subst hn
          simp only [List.length_drop, List.length_cons]
          omega
        exact ih _ hlt _ rfl b h

theorem batches_dropLast_length (l : List α) :
    ∀ b ∈ (batches l).dropLast, b.length = 500 := by
  generalize hn : l.length = n
  induction n using Nat.strong_induction_on generalizing l with
  | _ n ih =>
    cases l with
    | nil => simp [batches, chunksFuel]
    | cons x xs =>
      rw [batches_cons]
      cases hR : batches ((x :: xs).drop 500) with
      | nil => simp
      | cons r rs =>
        have hD : (x :: xs).drop 500 ≠ [] := by
          intro hcon
          rw [hcon] at hR
          simp [batches, chunksFuel] at hR
        have hbig : 500 < (x :: xs).length := by
          have := List.length_pos.mpr hD
          simp only [List.length_drop] at this
          omega
        intro b hb
        rw [List.dropLast_cons₂] at hb
        rcases List.mem_cons.mp hb with h | h
        · subst h
          simp only [List.length_take]
          omega
        · have hlt : ((x :: xs).drop 500).length < n := by
            subst hn
            simp only [List.length_drop, List.length_cons]
            omega
          have := ih _ hlt _ rfl b
          rw [hR] at this
          exact this h

end Vectorizer

/-- C3: `store_docs` partitions the texts into batches of 500 in original
order (their concatenation restores the input, every batch is non-empty
with at most 500 texts, and every batch except possibly the last has
exactly 500), and — whenever the embedding collaborator returns one vector
per input, as its interface promises — assigns the global ids
`local_index + batch_index * 500 + 1`, which over the whole run are exactly
`1..M` with no gaps and no duplicates, in input order. -/
theorem claim3_store_docs_global_ids {α : Type} (texts : List α)
    (embedLen : List α → Nat) (hlen : ∀ b : List α, embedLen b = b.length) :
    (Vectorizer.batches texts).flatten = texts ∧
    (∀ b ∈ Vectorizer.batches texts, 0 < b.length ∧ b.length ≤ 500) ∧
    (∀ b ∈ (Vectorizer.batches texts).dropLast, b.length = 500) ∧
    Vectorizer.storeDocsIds embedLen texts = List.range' 1 texts.length := by
  refine ⟨Vectorizer.batches_flatten texts, Vectorizer.batches_length_le texts,
    Vectorizer.batches_dropLast_length texts, ?_⟩
  · unfold Vectorizer.storeDocsIds
    have hcongr : ((Vectorizer.batches texts).enum.flatMap
          fun p => Vectorizer.batchIds (embedLen p.2) p.1 p.2) =
        ((Vectorizer.batches texts).enum.flatMap
          fun p => Vectorizer.batchIds p.2.length p.1 p.2) := by
      congr 1
      funext p
      rw [hlen]
    rw [hcongr, List.map_flatMap]
    have hpt : ((Vectorizer.batches texts).enum.flatMap
          fun p => (Vectorizer.batchIds p.2.length p.1 p.2).map Prod.fst) =
        ((Vectorizer.batches texts).enum.flatMap
          fun p => List.range' (p.1 * 500 + 1) p.2.length) := by
      congr 1
      funext p
      exact Vectorizer.batchIds_fst p.1 p.2
    rw [hpt]
    have h0 := Vectorizer.ids_go texts 0
    simpa using h0

/-- C3 witness: three texts form one batch; the assigned ids are exactly
`[1, 2, 3]` and the batches concatenate back to the input. -/
theorem claim3_witness :
    (Vectorizer.batches [10, 20, 30]).flatten = [10, 20, 30] ∧
    (∀ b ∈ Vectorizer.batches [10, 20, 30], 0 < b.length ∧ b.length ≤ 500) ∧
    (∀ b ∈ (Vectorizer.batches [10, 20, 30]).dropLast, b.length = 500) ∧
    Vectorizer.storeDocsIds (fun b : List Nat => b.length) [10, 20, 30] =
      List.range' 1 3 := by
  have h := claim3_store_docs_global_ids [10, 20, 30]
    (fun b : List Nat => b.length) (fun _ => rfl)
  simpa using h

namespace Vectorizer

/-- Case analysis of one `store_docs` batch iteration: either it fails
before the items transaction commits (store unchanged), or it fails between
the two transactions (only the embeddings of the batch persisted), or both
transactions commit. -/
theorem storeBatch_spec {α : Type} (st : Store α) (sch : Schedule) (i : Nat) (b : List α) :
    (∃ sch', storeBatch st sch i b = (st, false, sch')) ∨
    (∃ sch', storeBatch st sch i b =
      ({ st with items := st.items ++ batchIds b.length i b }, false, sch')) ∨
    (∃ sch', storeBatch st sch i b =
      ({ items := st.items ++ batchIds b.length i b,
         mates := st.mates ++ batchIds b.length i b }, true, sch')) := by
  unfold storeBatch
  rcases h1 : nextStep sch with ⟨ok1, sch1⟩
  cases ok1 with
  | false => exact Or.inl ⟨sch1, by simp⟩
  | true =>
    simp only [Bool.not_true, Bool.false_eq_true, if_false]
    rcases h2 : nextStep sch1 with ⟨ok2, sch2⟩
    cases ok2 with
    | false => exact Or.inl ⟨sch2, by simp⟩
    | true =>
      simp only [Bool.not_true, Bool.false_eq_true, if_false]
      rcases h3 : nextStep sch2 with ⟨ok3, sch3⟩
      cases ok3 with
      | false => exact Or.inr (Or.inl ⟨sch3, by simp⟩)
      | true => exact Or.inr (Or.inr ⟨sch3, by simp⟩)

/-- Metadata rows never outrun embedding rows: whatever the failure
schedule, the final store's items list is the mates list extended by the
(possibly empty) ids of an interrupted batch, and a successful run leaves
the two lists identical. -/
theorem storeDocsGo_mates_lag {α : Type} :
    ∀ (bs : List (Nat × List α)) (st : Store α) (sch : Schedule),
    st.items = st.mates →
    ∃ extra, (storeDocsGo bs st sch).1.items = (storeDocsGo bs st sch).1.mates ++ extra ∧
      ((storeDocsGo bs st sch).2 = true → extra = []) := by
  intro bs
  induction bs with
  | nil =>
    intro st sch h
    exact ⟨[], by simp [storeDocsGo, h], fun _ => rfl⟩
  | cons p rest ih =>
    intro st sch h
    obtain ⟨i, b⟩ := p
    rcases storeBatch_spec st sch i b with ⟨sch', hs⟩ | ⟨sch', hs⟩ | ⟨sch', hs⟩
    · simp only [storeDocsGo, hs]
      refine ⟨[], by simp [h], ?_⟩
      intro hf
      simp at hf
    · simp only [storeDocsGo, hs]
      refine ⟨batchIds b.length i b, by simp [h], ?_⟩
      intro hf
      simp at hf
    · simp only [storeDocsGo, hs]
      apply ih
      simp [h]

end Vectorizer

/-- C2 counterexample: with texts `["a"]` and a schedule where the
embedding call and the items transaction succeed but the metadata
transaction fails, `store_docs` returns an error yet the batch's embedding
rows ARE persisted while its metadata rows are not — the batch is not
committed all-or-nothing. -/
theorem claim2_counterexample :
    (Vectorizer.store_docs ["a"] [true, true, false]).2 = false ∧
    (Vectorizer.store_docs ["a"] [true, true, false]).1.items = [(1, "a")] ∧
    (Vectorizer.store_docs ["a"] [true, true, false]).1.mates = [] := by
  decide

/-- C2 amended: `store_docs` commits each batch's embeddings and metadata
as TWO separate transactions, embeddings first; each single transaction is
atomic, so metadata is never persisted without its embeddings (the items
list always extends the mates list), and a run that returns `Ok` leaves
both record sets identical — but a failure between the two commits leaves
that batch's embeddings persisted without metadata. -/
theorem claim2_amended_two_transactions {α : Type} (texts : List α) (sch : Vectorizer.Schedule) :
    ∃ extra,
      (Vectorizer.store_docs texts sch).1.items =
        (Vectorizer.store_docs texts sch).1.mates ++ extra ∧
      ((Vectorizer.store_docs texts sch).2 = true → extra = []) :=
  Vectorizer.storeDocsGo_mates_lag _ _ _ rfl

/-- C2 amended witness: a failure-free run over one batch leaves both
record sets equal. -/
theorem claim2_amended_witness :
    ∃ extra,
      (Vectorizer.store_docs ["a"] []).1.items =
        (Vectorizer.store_docs ["a"] []).1.mates ++ extra ∧
      ((Vectorizer.store_docs ["a"] []).2 = true → extra = []) :=
  claim2_amended_two_transactions ["a"] []

/-- C9: rows whose stored metadata is missing (`None`) or whose payload the
parsing collaborator rejects (malformed JSON, missing or non-string `text`
field) are silently dropped from the documents; a result set that is empty
after filtering — including a query against a collection with zero stored
rows — yields the fixed "no relevant results" success reply, never an
error; and the only error the post-search path can produce comes from
serializing a non-empty document list, not from dropped rows. -/
theorem claim9_rows_dropped_silently (parseText : String → Option String)
    (toJson : List String → Except String String)
    (rows : List (Int × Option String)) :
    (Main.toolResult parseText toJson [] = .success Main.noResultsText) ∧
    (Main.extractDocuments parseText rows = [] →
      Main.toolResult parseText toJson rows = .success Main.noResultsText) ∧
    (∀ pre post i, Main.extractDocuments parseText (pre ++ (i, none) :: post) =
      Main.extractDocuments parseText (pre ++ post)) ∧
    (∀ pre post i m, parseText m = none →
      Main.extractDocuments parseText (pre ++ (i, some m) :: post) =
        Main.extractDocuments parseText (pre ++ post)) ∧
    (∀ e, Main.toolResult parseText toJson rows = .error e →
      toJson (Main.extractDocuments parseText rows) = .error e) := by
  refine ⟨rfl, ?_, ?_, ?_, ?_⟩
  · intro h
    simp [Main.toolResult, h]
  · intro pre post i
    simp [Main.extractDocuments, List.filterMap_append]
  · intro pre post i m hm
    simp [Main.extractDocuments, List.filterMap_append, hm]
  · intro e h
    unfold Main.toolResult at h
    dsimp only at h
    by_cases hemp : (Main.extractDocuments parseText rows).isEmpty = true
    · rw [if_pos hemp] at h
      cases h
    · rw [if_neg hemp] at h
      cases hj : toJson (Main.extractDocuments parseText rows) with
      | ok c =>
        rw [hj] at h
        cases h
      | error em =>
        rw [hj] at h
        cases h
        rfl

/-- C9 witness: a concrete result set whose two rows are one missing-metadata
row and one malformed row filters to empty and is reported as the
"no relevant results" success. -/
theorem claim9_witness :
    Main.toolResult (fun _ => none) (fun _ => .ok "") [(0, none), (1, some "oops")] =
      .success Main.noResultsText :=
  (claim9_rows_dropped_silently (fun _ => none) (fun _ => .ok "")
    [(0, none), (1, some "oops")]).2.1 rfl

namespace Chunker

/-! ## Index bookkeeping of `process_file` -/

theorem process_file_texts (uid source : String) :
    ∀ (cs : List Str) (k : Nat),
    (((cs.enumFrom k).filterMap fun p =>
        if rustTrim p.2 = [] then none
        else some ({ id := mkId uid p.1, text := p.2, source := source } : TextChunk)).map
      (fun r => r.text)) = cs.filter nonBlank := by
  intro cs
  induction cs with
  | nil => intro k; rfl
  | cons c cs ih =>
    intro k
    simp only [List.enumFrom_cons, List.filterMap_cons]
    by_cases hb : rustTrim c = []
    · rw [if_pos hb]
      have hnb : nonBlank c = false := by
        simp [nonBlank, hb]
      simp only [List.filter_cons, hnb]
      exact ih (k + 1)
    · rw [if_neg hb]
      have hnb : nonBlank c = true := by
        simp [nonBlank, hb]
      simp only [List.map_cons, List.filter_cons, hnb, if_true]
      rw [ih (k + 1)]

theorem process_file_ids (uid source : String) :
    ∀ (cs : List Str) (k j : Nat) (r : TextChunk),
    ((cs.enumFrom k).filterMap fun p =>
        if rustTrim p.2 = [] then none
        else some ({ id := mkId uid p.1, text := p.2, source := source } : TextChunk)).get? j =
      some r →
    ∃ i, cs.get? i = some r.text ∧ nonBlank r.text = true ∧ r.id = mkId uid (k + i) ∧
      ((cs.take i).filter nonBlank).length = j := by
  intro cs
  induction cs with
  | nil =>
    intro k j r h
    simp [List.enumFrom_nil] at h
  | cons c cs ih =>
    intro k j r h
    simp only [List.enumFrom_cons, List.filterMap_cons] at h
    by_cases hb : rustTrim c = []
    · rw [if_pos hb] at h
      obtain ⟨i, hget, hnb, hid, hcnt⟩ := ih (k + 1) j r h
      refine ⟨i + 1, by simpa using hget, hnb, ?_, ?_⟩
      · rw [hid]
        congr 1
        omega
      · have hnbc : nonBlank c = false := by simp [nonBlank, hb]
        simp only [List.take_succ_cons, List.filter_cons, hnbc]
        exact hcnt
    · rw [if_neg hb] at h
      have hnbc : nonBlank c = true := by simp [nonBlank, hb]
      cases j with
      | zero =>
        simp only [List.get?_cons_zero, Option.some_inj] at h
        subst h
        refine ⟨0, rfl, hnbc, by simp, by simp⟩
      | succ j' =>
        simp only [List.get?_cons_succ] at h
        obtain ⟨i, hget, hnb, hid, hcnt⟩ := ih (k + 1) j' r h
        refine ⟨i + 1, by simpa using hget, hnb, ?_, ?_⟩
        · rw [hid]
          congr 1
          omega
        · simp only [List.take_succ_cons, List.filter_cons, hnbc, if_true, List.length_cons]
          omega

end Chunker

/-- C4 counterexample: with chunk size 2 and overlap 0, the file content
"aa\n\n\n\n\n\nbb" splits into six chunks of which three are blank; the
emitted identities are `u-0`, `u-4`, `u-5` — the dropped chunks DID consume
index slots, and the second kept chunk does not carry the sequential index
1 the claim requires. -/
theorem claim4_counterexample :
    ((Chunker.process_file (Chunker.chunkerSplitter 2 0) "u" "f.md"
        "aa\n\n\n\n\n\nbb".toList).map fun r => r.id) = ["u-0", "u-4", "u-5"] ∧
    (((Chunker.process_file (Chunker.chunkerSplitter 2 0) "u" "f.md"
        "aa\n\n\n\n\n\nbb".toList).get? 1).map fun r => r.id) = some "u-4" ∧
    ("u-4" : String) ≠ Chunker.mkId "u" 1 := by
  refine ⟨by decide, by decide, by decide⟩

/-- C4 amended: chunks whose trimmed text is empty are indeed dropped before
identity assignment, but a dropped chunk DOES consume an index slot: each
emitted record carries the chunk's zero-based position in the pre-filter
split sequence (so the emitted indices may have gaps), and the j-th emitted
record is the chunk at the position whose prefix holds exactly j kept
chunks. -/
theorem claim4_amended_prefilter_indices (sp : TextSplitter.Splitter)
    (uid source : String) (content : Str) :
    ((Chunker.process_file sp uid source content).map fun r => r.text) =
      (TextSplitter.split_text sp content).filter Chunker.nonBlank ∧
    ∀ j r, (Chunker.process_file sp uid source content).get? j = some r →
      ∃ i, (TextSplitter.split_text sp content).get? i = some r.text ∧
        Chunker.nonBlank r.text = true ∧ r.id = Chunker.mkId uid i ∧
        (((TextSplitter.split_text sp content).take i).filter Chunker.nonBlank).length = j := by
  constructor
  · exact Chunker.process_file_texts uid source (TextSplitter.split_text sp content) 0
  · intro j r h
    obtain ⟨i, hget, hnb, hid, hcnt⟩ :=
      Chunker.process_file_ids uid source (TextSplitter.split_text sp content) 0 j r h
    exact ⟨i, hget, hnb, by simpa using hid, hcnt⟩

/-- C4 amended witness: in the counterexample file, the record emitted at
output position 0 is the chunk at pre-filter position 0. -/
theorem claim4_amended_witness :
    ∃ i, (TextSplitter.split_text (Chunker.chunkerSplitter 2 0)
        "aa\n\n\n\n\n\nbb".toList).get? i = some "aa".toList ∧
      Chunker.nonBlank "aa".toList = true ∧ "u-0" = Chunker.mkId "u" i ∧
      (((TextSplitter.split_text (Chunker.chunkerSplitter 2 0)
          "aa\n\n\n\n\n\nbb".toList).take i).filter Chunker.nonBlank).length = 0 :=
  (claim4_amended_prefilter_indices (Chunker.chunkerSplitter 2 0) "u" "f.md"
    "aa\n\n\n\n\n\nbb".toList).2 0
    { id := "u-0", text := "aa".toList, source := "f.md" } (by decide)

namespace TextSplitter

/-! ## Reconstruction: splitting then re-joining restores the input -/

theorem isPrefixOf_exists {a b : Str} (h : a.isPrefixOf b = true) :
    ∃ t, a ++ t = b := by
  induction a generalizing b with
  | nil => exact ⟨b, rfl⟩
  | cons c a' ih =>
    cases b with
    | nil => simp [List.isPrefixOf] at h
    | cons d b' =>
      simp only [List.isPrefixOf, Bool.and_eq_true, beq_iff_eq] at h
      obtain ⟨t, ht⟩ := ih h.2
      exact ⟨t, by rw [List.cons_append, ht, h.1]⟩

theorem splitOnFuel_ne_nil (s : Char) (ss : Str) :
    ∀ (fuel : Nat) (text : Str), splitOnFuel s ss fuel text ≠ [] := by
  intro fuel text
  match fuel, text with
  | _, [] => simp [splitOnFuel]
  | 0, _ :: _ => simp [splitOnFuel]
  | f + 1, c :: rest =>
    simp only [splitOnFuel]
    split
    · simp
    · split <;> simp

theorem joinSep_cons_head (sep : Str) (c : Char) (h : Str) (t : List Str) :
    joinSep sep ((c :: h) :: t) = c :: joinSep sep (h :: t) := by
  cases t <;> simp [joinSep]

theorem splitOnFuel_join (s : Char) (ss : Str) :
    ∀ (fuel : Nat) (text : Str), text.length ≤ fuel →
    joinSep (s :: ss) (splitOnFuel s ss fuel text) = text := by
  intro fuel
  induction fuel with
  | zero =>
    intro text h
    have htext : text = [] := List.length_eq_zero.mp (Nat.le_zero.mp h)
    subst htext
    rfl
  | succ f ih =>
    intro text h
    cases text with
    | nil => rfl
    | cons c rest =>
      simp only [splitOnFuel]
      by_cases hp : (s :: ss).isPrefixOf (c :: rest)
      · rw [if_pos hp]
        obtain ⟨t, ht⟩ := isPrefixOf_exists hp
        have hrest : ss ++ t = rest := by
          have := ht
          simp only [List.cons_append, List.cons.injEq] at this
          exact this.2
        have hdrop : rest.drop ss.length = t := by
          rw [← hrest, List.drop_left]
        cases hL : splitOnFuel s ss f (rest.drop ss.length) with
        | nil => exact absurd hL (splitOnFuel_ne_nil s ss f _)
        | cons x L =>
          have hj : joinSep (s :: ss) ([] :: x :: L) =
              (s :: ss) ++ joinSep (s :: ss) (x :: L) := by
            simp [joinSep]
          have hlen : (rest.drop ss.length).length ≤ f := by
            simp only [List.length_drop]
            simp only [List.length_cons] at h
            omega
          rw [hj, ← hL, ih (rest.drop ss.length) hlen, hdrop, ← ht]
      · rw [if_neg hp]
        cases hL : splitOnFuel s ss f rest with
        | nil => exact absurd hL (splitOnFuel_ne_nil s ss f _)
        | cons hd tl =>
          simp only []
          rw [joinSep_cons_head, ← hL]
          have hlen : rest.length ≤ f := by
            simp only [List.length_cons] at h
            omega
          rw [ih rest hlen]

theorem splitOn_ne_nil (s : Char) (ss text : Str) : splitOnCore s ss text ≠ [] :=
  splitOnFuel_ne_nil s ss text.length text

theorem splitOn_join (s : Char) (ss text : Str) :
    joinSep (s :: ss) (splitOnCore s ss text) = text :=
  splitOnFuel_join s ss text.length text (le_refl _)

theorem joinSep_eq_head_flatten (sep : Str) :
    ∀ (t : List Str) (h : Str),
    joinSep sep (h :: t) = h ++ (t.map fun s2 => sep ++ s2).flatten := by
  intro t
  induction t with
  | nil => intro h; simp [joinSep]
  | cons y t' ih =>
    intro h
    simp only [joinSep, List.map_cons, List.flatten_cons, ih y]
    simp [List.append_assoc]

theorem withSeps_flatten (sp : Splitter) (hkeep : sp.keep_separator = true)
    (sep : Str) (splits : List Str) :
    (withSeps sp sep splits).flatten = joinSep sep splits := by
  cases splits with
  | nil => rfl
  | cons h t =>
    simp only [withSeps, hkeep, if_true, List.flatten_cons]
    rw [joinSep_eq_head_flatten]

/-! ## Overlap 0: chunks concatenate back to the input -/

theorem seedOf_zero (sp : Splitter) (h0 : sp.chunk_overlap = 0) (a : Str) :
    seedOf sp a = [] := by
  simp [seedOf, h0]

theorem finishPass_flatten (st : List Str × Str) :
    (finishPass st).flatten = st.1.flatten ++ st.2 := by
  unfold finishPass
  split
  · simp [List.flatten_append]
  · next hnil =>
    push_neg at hnil
    simp [hnil]

theorem mergeFold_flatten (sp : Splitter) (h0 : sp.chunk_overlap = 0) :
    ∀ (ws : List Str) (st : List Str × Str),
    (ws.foldl (mergeStep sp) st).1.flatten ++ (ws.foldl (mergeStep sp) st).2 =
      st.1.flatten ++ st.2 ++ ws.flatten := by
  intro ws
  induction ws with
  | nil => intro st; simp
  | cons w ws ih =>
    intro st
    rw [List.foldl_cons, ih]
    have hstep : (mergeStep sp st w).1.flatten ++ (mergeStep sp st w).2 =
        st.1.flatten ++ st.2 ++ w := by
      unfold mergeStep
      split
      · simp [seedOf_zero sp h0, List.flatten_append, List.append_assoc]
      · simp [List.append_assoc]
    rw [hstep]
    simp [List.append_assoc]

theorem mergeSplits_flatten (sp : Splitter) (h0 : sp.chunk_overlap = 0)
    (sep : Str) (splits : List Str) :
    (mergeSplits sp sep splits).flatten = (withSeps sp sep splits).flatten := by
  unfold mergeSplits
  rw [finishPass_flatten]
  have h := mergeFold_flatten sp h0 (withSeps sp sep splits) ([], [])
  simpa using h

theorem charFold_flatten (sp : Splitter) (h0 : sp.chunk_overlap = 0) :
    ∀ (cs : Str) (st : List Str × Str),
    (cs.foldl (charStep sp) st).1.flatten ++ (cs.foldl (charStep sp) st).2 =
      st.1.flatten ++ st.2 ++ cs := by
  intro cs
  induction cs with
  | nil => intro st; simp
  | cons c cs ih =>
    intro st
    rw [List.foldl_cons, ih]
    have hstep : (charStep sp st c).1.flatten ++ (charStep sp st c).2 =
        st.1.flatten ++ st.2 ++ [c] := by
      unfold charStep
      split
      · simp [seedOf_zero sp h0, List.flatten_append, List.append_assoc]
      · simp [List.append_assoc]
    rw [hstep]
    simp [List.append_assoc]

theorem split_by_character_flatten (sp : Splitter) (h0 : sp.chunk_overlap = 0)
    (text : Str) : (split_by_character sp text).flatten = text := by
  unfold split_by_character
  rw [finishPass_flatten]
  have h := charFold_flatten sp h0 text ([], [])
  simpa using h

theorem reSplit_flatten (next : Str → List Str) (size : Nat)
    (hnext : ∀ c, (next c).flatten = c) :
    ∀ cs : List Str, (reSplit next size cs).flatten = cs.flatten := by
  intro cs
  induction cs with
  | nil => rfl
  | cons c cs ih =>
    simp only [reSplit, List.flatten_append, List.flatten_cons, ih]
    split
    · simp
    · rw [hnext c]

theorem stws_flatten (sp : Splitter) (h0 : sp.chunk_overlap = 0)
    (hkeep : sp.keep_separator = true) :
    ∀ (seps : List Str) (text : Str), (stws sp seps text).flatten = text := by
  intro seps
  induction seps with
  | nil => intro text; simp [stws]
  | cons sep rest ih =>
    intro text
    show (stwsBody sp sep (stws sp rest) text).flatten = text
    unfold stwsBody
    split
    · simp
    · match sep with
      | [] => exact split_by_character_flatten sp h0 text
      | s :: ss =>
        simp only []
        split
        · exact ih text
        · split
          · rw [mergeSplits_flatten sp h0, withSeps_flatten sp hkeep, splitOn_join]
          · split
            · exact ih text
            · rw [reSplit_flatten (stws sp rest) sp.chunk_size ih,
                mergeSplits_flatten sp h0, withSeps_flatten sp hkeep, splitOn_join]

end TextSplitter

/-- C8 counterexample: with `keep_separator = false` (a configuration the
claim's quantifier includes, since it only fixes `overlap = 0`), the
separators are dropped from the chunks, so concatenating the chunks loses
them: "aaxbb" splits into ["aa", "bb"], whose concatenation is "aabb". -/
theorem claim8_counterexample :
    TextSplitter.split_text
      ((((TextSplitter.new.with_separators [['x']]).with_chunk_size 2).with_chunk_overlap
          0).with_keep_separator false) "aaxbb".toList = ["aa".toList, "bb".toList] ∧
    (TextSplitter.split_text
      ((((TextSplitter.new.with_separators [['x']]).with_chunk_size 2).with_chunk_overlap
          0).with_keep_separator false) "aaxbb".toList).flatten ≠ "aaxbb".toList := by
  refine ⟨by decide, by decide⟩

/-- C8 amended: with `overlap = 0` AND the default `keep_separator = true`
(separators re-attached to the chunks), concatenating in order all chunks
returned by `split_text` reconstructs the original input exactly; with
`keep_separator = false` the separators are lost (see the counterexample). -/
theorem claim8_amended_concat_restores_input (sp : TextSplitter.Splitter) (text : Str)
    (h0 : sp.chunk_overlap = 0) (hkeep : sp.keep_separator = true) :
    (TextSplitter.split_text sp text).flatten = text := by
  unfold TextSplitter.split_text
  split
  · simp
  · exact TextSplitter.stws_flatten sp h0 hkeep sp.separators text

/-- C8 amended witness: the default splitter with overlap 0 on a two-chunk
input reconstructs the input. -/
theorem claim8_amended_witness :
    (TextSplitter.split_text (TextSplitter.new.with_chunk_overlap 0)
      "Hello splitter world".toList).flatten = "Hello splitter world".toList :=
  claim8_amended_concat_restores_input (TextSplitter.new.with_chunk_overlap 0)
    "Hello splitter world".toList rfl rfl

namespace TextSplitter

/-! ## Character-count bound of the splitter output -/

theorem seedOf_length_le (sp : Splitter) (a : Str) :
    (seedOf sp a).length ≤ sp.chunk_overlap := by
  unfold seedOf
  split
  · simp only [List.length_drop]
    omega
  · simp

theorem finishPass_mem {st : List Str × Str} {x : Str} (hx : x ∈ finishPass st) :
    x ∈ st.1 ∨ x = st.2 := by
  unfold finishPass at hx
  split at hx
  · rcases List.mem_append.mp hx with h | h
    · exact Or.inl h
    · exact Or.inr (List.mem_singleton.mp h)
  · exact Or.inl hx

theorem charFold_len (sp : Splitter) (hov : sp.chunk_overlap < sp.chunk_size) :
    ∀ (cs : Str) (st : List Str × Str),
    (∀ x ∈ st.1, x.length ≤ sp.chunk_size) → st.2.length ≤ sp.chunk_size →
    (∀ x ∈ (cs.foldl (charStep sp) st).1, x.length ≤ sp.chunk_size) ∧
      (cs.foldl (charStep sp) st).2.length ≤ sp.chunk_size := by
  intro cs
  induction cs with
  | nil => intro st h1 h2; exact ⟨h1, h2⟩
  | cons c cs ih =>
    intro st h1 h2
    rw [List.foldl_cons]
    apply ih
    · intro x hx
      unfold charStep at hx
      split at hx
      · rcases List.mem_append.mp hx with h | h
        · exact h1 x h
        · rw [List.mem_singleton.mp h]
          exact h2
      · exact h1 x hx
    · unfold charStep
      split
      · next hemit =>
        simp only [List.length_append, List.length_singleton]
        have := seedOf_length_le sp st.2
        omega
      · next hkeep =>
        push_neg at hkeep
        simp only [List.length_append, List.length_singleton]
        have := length_le_byteLen st.2
        omega

theorem split_by_character_len (sp : Splitter) (hov : sp.chunk_overlap < sp.chunk_size)
    (text : Str) : ∀ x ∈ split_by_character sp text, x.length ≤ sp.chunk_size := by
  intro x hx
  unfold split_by_character at hx
  have h := charFold_len sp hov text ([], []) (by simp) (by simp)
  rcases finishPass_mem hx with h1 | h1
  · exact h.1 x h1
  · rw [h1]
    exact h.2

theorem stws_len (sp : Splitter) (hov : sp.chunk_overlap < sp.chunk_size) :
    ∀ (seps : List Str), [] ∈ seps → ∀ (text : Str),
    ∀ c ∈ stws sp seps text, c.length ≤ sp.chunk_size := by
  intro seps
  induction seps with
  | nil => intro hmem; exact absurd hmem (List.not_mem_nil _)
  | cons sep rest ih =>
    intro hmem text c hc
    replace hc : c ∈ stwsBody sp sep (stws sp rest) text := hc
    unfold stwsBody at hc
    split at hc
    · next hsmall =>
      rw [List.mem_singleton.mp hc]
      exact le_trans (length_le_byteLen text) hsmall
    · cases sep with
      | nil => exact split_by_character_len sp hov text c hc
      | cons s ss =>
        simp only [] at hc
        have hrest : ([] : Str) ∈ rest := by
          rcases List.mem_cons.mp hmem with h | h
          · exact absurd h.symm (by simp)
          · exact h
        split at hc
        · exact ih hrest text c hc
        · split at hc
          · next hcond => exact le_trans (length_le_byteLen c) (hcond.2 c hc)
          · split at hc
            · exact ih hrest text c hc
            · next hcond =>
              push_neg at hcond
              exact le_trans (length_le_byteLen c) (hcond.2 c hc)

end TextSplitter

/-- C1 counterexample: the claim quantifies over every configuration with
`overlap < max_size`, but a configuration whose separator list lacks the
empty-string fallback can return a chunk longer than `max_size`: with
separators `[]`, size 1, overlap 0, the two-character input "ab" comes back
as the single oversized chunk "ab". -/
theorem claim1_counterexample :
    (((TextSplitter.new.with_separators []).with_chunk_size 1).with_chunk_overlap
        0).chunk_overlap <
      (((TextSplitter.new.with_separators []).with_chunk_size 1).with_chunk_overlap
        0).chunk_size ∧
    TextSplitter.split_text
      (((TextSplitter.new.with_separators []).with_chunk_size 1).with_chunk_overlap 0)
      ['a', 'b'] = [['a', 'b']] ∧
    ∃ c ∈ TextSplitter.split_text
      (((TextSplitter.new.with_separators []).with_chunk_size 1).with_chunk_overlap 0)
      ['a', 'b'],
      (((TextSplitter.new.with_separators []).with_chunk_size 1).with_chunk_overlap
        0).chunk_size < c.length := by
  refine ⟨by decide, by decide, by decide⟩

/-- C1 amended: for every input text and every configuration with
`overlap < max_size` WHOSE SEPARATOR LIST CONTAINS THE EMPTY-STRING
FALLBACK (as the default list does), `split_text` terminates (it is a total
function of this embedding) and every returned chunk's character count is
at most `max_size`. -/
theorem claim1_amended_chunk_length_bound (sp : TextSplitter.Splitter) (text : Str)
    (hov : sp.chunk_overlap < sp.chunk_size) (hfall : [] ∈ sp.separators) :
    ∀ c ∈ TextSplitter.split_text sp text, c.length ≤ sp.chunk_size := by
  intro c hc
  unfold TextSplitter.split_text at hc
  split at hc
  · next hsmall =>
    rw [List.mem_singleton.mp hc]
    exact le_trans (length_le_byteLen text) hsmall
  · exact TextSplitter.stws_len sp hov sp.separators hfall text c hc

/-- C1 amended witness: the default configuration (size 400, overlap 20,
separators ending in the empty-string fallback) on a concrete input, applied
to the concrete chunk the splitter returns. -/
theorem claim1_amended_witness :
    "tiny".toList.length ≤ TextSplitter.new.chunk_size :=
  claim1_amended_chunk_length_bound TextSplitter.new "tiny".toList (by decide) (by decide)
    "tiny".toList (by decide)

namespace TextSplitter

/-! ## Prefix and suffix toolkit for the overlap invariants -/

theorem isPre_refl (a : Str) : isPre a a := ⟨[], by simp⟩

theorem isPre_trans {a b c : Str} (h1 : isPre a b) (h2 : isPre b c) : isPre a c := by
  obtain ⟨t1, h1⟩ := h1
  obtain ⟨t2, h2⟩ := h2
  exact ⟨t1 ++ t2, by rw [← h2, ← h1, List.append_assoc]⟩

theorem isPre_append_right {a b : Str} (w : Str) (h : isPre a b) : isPre a (b ++ w) := by
  obtain ⟨t, ht⟩ := h
  exact ⟨t ++ w, by rw [← ht, List.append_assoc]⟩

theorem isSuf_refl (a : Str) : isSuf a a := ⟨[], by simp⟩

theorem isSuf_trans {a b c : Str} (h1 : isSuf a b) (h2 : isSuf b c) : isSuf a c := by
  obtain ⟨t1, h1⟩ := h1
  obtain ⟨t2, h2⟩ := h2
  exact ⟨t2 ++ t1, by rw [← h2, ← h1, List.append_assoc]⟩

theorem isSuf_append_right {a b : Str} (w : Str) (h : isSuf a b) :
    isSuf (a ++ w) (b ++ w) := by
  obtain ⟨t, ht⟩ := h
  exact ⟨t, by rw [← ht, List.append_assoc]⟩

theorem isSuf_length_le {a b : Str} (h : isSuf a b) : a.length ≤ b.length := by
  obtain ⟨t, ht⟩ := h
  rw [← ht]
  simp

theorem seedOf_isSuf (sp : Splitter) (a : Str) : isSuf (seedOf sp a) a := by
  unfold seedOf
  split
  · exact ⟨a.take (a.length - sp.chunk_overlap), List.take_append_drop _ _⟩
  · exact ⟨a, by simp⟩

theorem seedOf_ne_nil (sp : Splitter) (hov : 0 < sp.chunk_overlap) {a : Str}
    (ha : a ≠ []) : seedOf sp a ≠ [] := by
  unfold seedOf
  rw [if_pos hov]
  have : 0 < a.length := List.length_pos.mpr ha
  intro hcon
  have := congrArg List.length hcon
  simp only [List.length_drop, List.length_nil] at this
  omega

theorem drop_length_add_append (t : Str) : ∀ (x : Str) (n : Nat),
    (t ++ x).drop (t.length + n) = x.drop n := by
  induction t with
  | nil => intro x n; simp
  | cons c t ih =>
    intro x n
    have : (c :: t).length + n = (t.length + n) + 1 := by
      simp only [List.length_cons]
      omega
    rw [this, List.cons_append, List.drop_succ_cons, ih]

theorem isSuf_drop_eq {x c : Str} {k : Nat} (h : isSuf x c) (hk : k ≤ x.length) :
    c.drop (c.length - k) = x.drop (x.length - k) := by
  obtain ⟨t, ht⟩ := h
  subst ht
  have hlen : (t ++ x).length - k = t.length + (x.length - k) := by
    simp only [List.length_append]
    omega
  rw [hlen, drop_length_add_append]

theorem isPre_take_self {p b : Str} (h : isPre p b) : b.take p.length = p := by
  obtain ⟨t, ht⟩ := h
  rw [← ht, List.take_left]

theorem isPre_take_eq {y c : Str} {k : Nat} (h : isPre y c) (hk : k ≤ y.length) :
    c.take k = y.take k := by
  obtain ⟨t, ht⟩ := h
  rw [← ht, List.take_append_of_le_length hk]

theorem seedOf_length_of_le (sp : Splitter) (hov : 0 < sp.chunk_overlap) {a : Str}
    (ha : sp.chunk_overlap ≤ a.length) :
    (seedOf sp a).length = sp.chunk_overlap := by
  unfold seedOf
  rw [if_pos hov]
  simp only [List.length_drop]
  omega

theorem seedRel_overlapProp (sp : Splitter) (hov : 0 < sp.chunk_overlap) {a b : Str}
    (h : SeedRel sp a b) : OverlapProp sp.chunk_overlap a b := by
  intro hlenA _
  have hseed : seedOf sp a = a.drop (a.length - sp.chunk_overlap) := by
    unfold seedOf
    rw [if_pos hov]
  have hlen : (seedOf sp a).length = sp.chunk_overlap := seedOf_length_of_le sp hov hlenA
  have htake := isPre_take_self h
  rw [hlen] at htake
  rw [htake, hseed]

theorem cross_boundary (sp : Splitter) (hov : 0 < sp.chunk_overlap) {cj cj1 x y : Str}
    (hrel : SeedRel sp cj cj1) (hx : isSuf x cj) (hy : isPre y cj1) :
    OverlapProp sp.chunk_overlap x y := by
  intro hlx hly
  have hcj : sp.chunk_overlap ≤ cj.length := le_trans hlx (isSuf_length_le hx)
  have h1 : cj.drop (cj.length - sp.chunk_overlap) = x.drop (x.length - sp.chunk_overlap) :=
    isSuf_drop_eq hx hlx
  have hseed : seedOf sp cj = cj.drop (cj.length - sp.chunk_overlap) := by
    unfold seedOf
    rw [if_pos hov]
  have hlen : (seedOf sp cj).length = sp.chunk_overlap := seedOf_length_of_le sp hov hcj
  have htake := isPre_take_self hrel
  rw [hlen] at htake
  have h2 : y.take sp.chunk_overlap = cj1.take sp.chunk_overlap := (isPre_take_eq hy hly).symm
  rw [h2, htake, hseed, h1]

end TextSplitter

namespace TextSplitter

/-! ## Loop invariants of the merge and character passes -/

theorem mergeStepInv (sp : Splitter) (hov : 0 < sp.chunk_overlap) (consumed w : Str)
    (st : List Str × Str) (h : passInv sp consumed st) :
    passInv sp (consumed ++ w) (mergeStep sp st w) := by
  obtain ⟨hch, hph, hlast, hne, hhead, hsuf⟩ := h
  unfold mergeStep
  split
  · next hclose =>
    obtain ⟨hcur, _⟩ := hclose
    refine ⟨?_, ?_, ?_, ?_, ?_, ?_⟩
    · refine List.chain'_append.mpr ⟨hch, List.chain'_singleton _, ?_⟩
      intro x hx y hy
      simp only [List.head?_cons, Option.mem_def, Option.some_inj] at hy
      subst hy
      exact hlast x hx
    · intro hcon
      simp at hcon
    · intro l hl
      rw [List.getLast?_append] at hl
      simp only [List.getLast?_singleton, Option.or_some, Option.mem_def,
        Option.some_inj] at hl
      subst hl
      exact ⟨w, rfl⟩
    · intro _
      have := seedOf_ne_nil sp hov hcur
      intro hcon
      rcases List.append_eq_nil.mp hcon with ⟨h1, _⟩
      exact this h1
    · intro x hx
      cases hst1 : st.1 with
      | nil =>
        rw [hst1] at hx
        simp only [List.nil_append, List.head?_cons, Option.mem_def,
          Option.some_inj] at hx
        subst hx
        rw [hph hst1]
        exact ⟨w, rfl⟩
      | cons a t =>
        rw [hst1] at hx
        simp only [List.cons_append, List.head?_cons, Option.mem_def,
          Option.some_inj] at hx
        subst hx
        apply isPre_append_right
        apply hhead
        rw [hst1]
        rfl
    · exact isSuf_append_right w (isSuf_trans (seedOf_isSuf sp st.2) hsuf)
  · refine ⟨hch, ?_, ?_, ?_, ?_, isSuf_append_right w hsuf⟩
    · intro h1
      rw [hph h1]
    · intro l hl
      exact isPre_append_right w (hlast l hl)
    · intro h1 hcon
      rcases List.append_eq_nil.mp hcon with ⟨h2, _⟩
      exact hne h1 h2
    · intro x hx
      exact isPre_append_right w (hhead x hx)

theorem charStepInv (sp : Splitter) (consumed : Str) (c : Char)
    (st : List Str × Str) (h : passInv sp consumed st) :
    passInv sp (consumed ++ [c]) (charStep sp st c) := by
  obtain ⟨hch, hph, hlast, hne, hhead, hsuf⟩ := h
  unfold charStep
  split
  · refine ⟨?_, ?_, ?_, ?_, ?_, ?_⟩
    · refine List.chain'_append.mpr ⟨hch, List.chain'_singleton _, ?_⟩
      intro x hx y hy
      simp only [List.head?_cons, Option.mem_def, Option.some_inj] at hy
      subst hy
      exact hlast x hx
    · intro hcon
      simp at hcon
    · intro l hl
      rw [List.getLast?_append] at hl
      simp only [List.getLast?_singleton, Option.or_some, Option.mem_def,
        Option.some_inj] at hl
      subst hl
      exact ⟨[c], rfl⟩
    · intro _
      intro hcon
      rcases List.append_eq_nil.mp hcon with ⟨_, h2⟩
      simp at h2
    · intro x hx
      cases hst1 : st.1 with
      | nil =>
        rw [hst1] at hx
        simp only [List.nil_append, List.head?_cons, Option.mem_def,
          Option.some_inj] at hx
        subst hx
        rw [hph hst1]
        exact ⟨[c], rfl⟩
      | cons a t =>
        rw [hst1] at hx
        simp only [List.cons_append, List.head?_cons, Option.mem_def,
          Option.some_inj] at hx
        subst hx
        apply isPre_append_right
        apply hhead
        rw [hst1]
        rfl
    · exact isSuf_append_right [c] (isSuf_trans (seedOf_isSuf sp st.2) hsuf)
  · refine ⟨hch, ?_, ?_, ?_, ?_, isSuf_append_right [c] hsuf⟩
    · intro h1
      rw [hph h1]
    · intro l hl
      exact isPre_append_right [c] (hlast l hl)
    · intro h1 hcon
      rcases List.append_eq_nil.mp hcon with ⟨_, h2⟩
      simp at h2
    · intro x hx
      exact isPre_append_right [c] (hhead x hx)

theorem passInv_init (sp : Splitter) : passInv sp [] ([], []) := by
  refine ⟨List.chain'_nil, fun _ => rfl, ?_, ?_, ?_, isSuf_refl []⟩
  · intro l hl
    simp at hl
  · intro h
    exact absurd rfl h
  · intro x hx
    simp at hx

theorem mergeFoldInv (sp : Splitter) (hov : 0 < sp.chunk_overlap) :
    ∀ (ws : List Str) (st : List Str × Str) (consumed : Str),
    passInv sp consumed st →
    passInv sp (consumed ++ ws.flatten) (ws.foldl (mergeStep sp) st) := by
  intro ws
  induction ws with
  | nil => intro st consumed h; simpa using h
  | cons w ws ih =>
    intro st consumed h
    rw [List.foldl_cons]
    have h1 := ih (mergeStep sp st w) (consumed ++ w) (mergeStepInv sp hov consumed w st h)
    simpa [List.append_assoc] using h1

theorem charFoldInv (sp : Splitter) :
    ∀ (cs : Str) (st : List Str × Str) (consumed : Str),
    passInv sp consumed st →
    passInv sp (consumed ++ cs) (cs.foldl (charStep sp) st) := by
  intro cs
  induction cs with
  | nil => intro st consumed h; simpa using h
  | cons c cs ih =>
    intro st consumed h
    rw [List.foldl_cons]
    have h1 := ih (charStep sp st c) (consumed ++ [c]) (charStepInv sp consumed c st h)
    simpa [List.append_assoc] using h1

theorem passFinishGood (sp : Splitter) (total : Str) (st : List Str × Str)
    (h : passInv sp total st) :
    List.Chain' (SeedRel sp) (finishPass st) ∧
    (∀ x ∈ (finishPass st).head?, isPre x total) ∧
    (∀ x ∈ (finishPass st).getLast?, isSuf x total) := by
  obtain ⟨hch, hph, hlast, hne, hhead, hsuf⟩ := h
  unfold finishPass
  split
  · next hcur =>
    refine ⟨?_, ?_, ?_⟩
    · refine List.chain'_append.mpr ⟨hch, List.chain'_singleton _, ?_⟩
      intro x hx y hy
      simp only [List.head?_cons, Option.mem_def, Option.some_inj] at hy
      subst hy
      exact hlast x hx
    · intro x hx
      cases hst1 : st.1 with
      | nil =>
        rw [hst1] at hx
        simp only [List.nil_append, List.head?_cons, Option.mem_def,
          Option.some_inj] at hx
        subst hx
        rw [hph hst1]
        exact isPre_refl total
      | cons a t =>
        rw [hst1] at hx
        simp only [List.cons_append, List.head?_cons, Option.mem_def,
          Option.some_inj] at hx
        subst hx
        apply hhead
        rw [hst1]
        rfl
    · intro x hx
      rw [List.getLast?_append] at hx
      simp only [List.getLast?_singleton, Option.or_some, Option.mem_def,
        Option.some_inj] at hx
      subst hx
      exact hsuf
  · next hcur =>
    push_neg at hcur
    refine ⟨hch, hhead, ?_⟩
    intro x hx
    cases hst1 : st.1 with
    | nil =>
      rw [hst1] at hx
      simp at hx
    | cons a t =>
      exact absurd (hne (by rw [hst1]; simp)) (by simp [hcur])

theorem mergeFold_elems (sp : Splitter) :
    ∀ (ws : List Str) (st : List Str × Str),
    (∀ x ∈ st.1, x ≠ []) → ∀ x ∈ (ws.foldl (mergeStep sp) st).1, x ≠ [] := by
  intro ws
  induction ws with
  | nil => intro st h; exact h
  | cons w ws ih =>
    intro st h
    rw [List.foldl_cons]
    apply ih
    unfold mergeStep
    split
    · next hclose =>
      intro x hx
      rcases List.mem_append.mp hx with h1 | h1
      · exact h x h1
      · rw [List.mem_singleton.mp h1]
        exact hclose.1
    · exact h

theorem mergeSplits_elems (sp : Splitter) (sep : Str) (splits : List Str) :
    ∀ x ∈ mergeSplits sp sep splits, x ≠ [] := by
  intro x hx
  unfold mergeSplits at hx
  have hfold := mergeFold_elems sp (withSeps sp sep splits) ([], []) (by simp)
  unfold finishPass at hx
  split at hx
  · next hcur =>
    rcases List.mem_append.mp hx with h1 | h1
    · exact hfold x h1
    · rw [List.mem_singleton.mp h1]
      exact hcur
  · exact hfold x hx

theorem mergeSplits_inv (sp : Splitter) (hov : 0 < sp.chunk_overlap)
    (sep : Str) (splits : List Str) :
    List.Chain' (SeedRel sp) (mergeSplits sp sep splits) ∧
    (∀ x ∈ (mergeSplits sp sep splits).head?, isPre x (withSeps sp sep splits).flatten) ∧
    (∀ x ∈ (mergeSplits sp sep splits).getLast?,
      isSuf x (withSeps sp sep splits).flatten) := by
  unfold mergeSplits
  have h := mergeFoldInv sp hov (withSeps sp sep splits) ([], []) [] (passInv_init sp)
  simp only [List.nil_append] at h
  exact passFinishGood sp _ _ h

theorem split_by_character_inv (sp : Splitter) (text : Str) :
    List.Chain' (SeedRel sp) (split_by_character sp text) ∧
    (∀ x ∈ (split_by_character sp text).head?, isPre x text) ∧
    (∀ x ∈ (split_by_character sp text).getLast?, isSuf x text) := by
  unfold split_by_character
  have h := charFoldInv sp text ([], []) [] (passInv_init sp)
  simp only [List.nil_append] at h
  exact passFinishGood sp _ _ h

end TextSplitter

namespace TextSplitter

/-! ## Gluing the re-splitting pass -/

theorem reSplit_good (sp : Splitter) (hov : 0 < sp.chunk_overlap)
    (next : Str → List Str) (size : Nat)
    (hnext : ∀ c, goodOut sp.chunk_overlap c (next c)) :
    ∀ (cs : List Str), List.Chain' (SeedRel sp) cs → (∀ x ∈ cs, x ≠ []) →
    List.Chain' (OverlapProp sp.chunk_overlap) (reSplit next size cs) ∧
    (cs ≠ [] → reSplit next size cs ≠ []) ∧
    (∀ h ∈ (reSplit next size cs).head?, ∃ c0 ∈ cs.head?, isPre h c0) ∧
    (∀ l ∈ (reSplit next size cs).getLast?, ∃ cn ∈ cs.getLast?, isSuf l cn) := by
  intro cs
  induction cs with
  | nil =>
    intro _ _
    refine ⟨List.chain'_nil, fun h => absurd rfl h, ?_, ?_⟩
    · intro h hh
      simp [reSplit] at hh
    · intro l hl
      simp [reSplit] at hl
  | cons c cs ih =>
    intro hch hne
    have hch' : List.Chain' (SeedRel sp) cs := hch.tail
    have hne' : ∀ x ∈ cs, x ≠ [] := fun x hx => hne x (List.mem_cons_of_mem c hx)
    obtain ⟨ihch, ihne, ihhead, ihlast⟩ := ih hch' hne'
    have pieceChain : List.Chain' (OverlapProp sp.chunk_overlap)
        (if byteLen c ≤ size then [c] else next c) := by
      split
      · exact List.chain'_singleton c
      · exact (hnext c).1
    have pieceNe : (if byteLen c ≤ size then [c] else next c) ≠ [] := by
      split
      · simp
      · exact (hnext c).2.2.2
    have pieceHead : ∀ h ∈ (if byteLen c ≤ size then [c] else next c).head?, isPre h c := by
      split
      · intro h hh
        simp only [List.head?_cons, Option.mem_def, Option.some_inj] at hh
        subst hh
        exact isPre_refl c
      · exact (hnext c).2.1
    have pieceLast : ∀ l ∈ (if byteLen c ≤ size then [c] else next c).getLast?,
        isSuf l c := by
      split
      · intro l hl
        simp only [List.getLast?_singleton, Option.mem_def, Option.some_inj] at hl
        subst hl
        exact isSuf_refl c
      · exact (hnext c).2.2.1
    have hout : reSplit next size (c :: cs) =
        (if byteLen c ≤ size then [c] else next c) ++ reSplit next size cs := rfl
    refine ⟨?_, ?_, ?_, ?_⟩
    · rw [hout]
      refine List.chain'_append.mpr ⟨pieceChain, ihch, ?_⟩
      intro x hx y hy
      obtain ⟨c1, hc1, hyc1⟩ := ihhead y hy
      have hrel : SeedRel sp c c1 := by
        have := (List.chain'_cons'.mp hch).1
        exact this c1 hc1
      exact cross_boundary sp hov hrel (pieceLast x hx) hyc1
    · intro _
      rw [hout]
      intro hcon
      rcases List.append_eq_nil.mp hcon with ⟨h1, _⟩
      exact pieceNe h1
    · intro h hh
      rw [hout] at hh
      cases hpc : (if byteLen c ≤ size then [c] else next c) with
      | nil => exact absurd hpc pieceNe
      | cons p ps =>
        rw [hpc] at hh
        simp only [List.cons_append, List.head?_cons, Option.mem_def,
          Option.some_inj] at hh
        subst hh
        refine ⟨c, rfl, ?_⟩
        apply pieceHead
        rw [hpc]
        rfl
    · intro l hl
      rw [hout] at hl
      cases hres : reSplit next size cs with
      | nil =>
        have hcs : cs = [] := by
          by_contra hcs
          exact ihne hcs hres
        rw [hres, List.append_nil] at hl
        subst hcs
        exact ⟨c, rfl, pieceLast l hl⟩
      | cons r rs =>
        rw [hres, List.getLast?_append] at hl
        have hsome : (r :: rs).getLast? ≠ none := by
          simp
        have hl2 : l ∈ (r :: rs).getLast? := by
          cases hlast2 : (r :: rs).getLast? with
          | none => exact absurd hlast2 hsome
          | some v =>
            rw [hlast2] at hl
            simp only [Option.or_some, Option.mem_def, Option.some_inj] at hl
            subst hl
            rfl
        rw [← hres] at hl2
        obtain ⟨cn, hcn, hsuf⟩ := ihlast l hl2
        have hcsne : cs ≠ [] := by
          intro hcon
          subst hcon
          simp [reSplit] at hres
        cases cs with
        | nil => exact absurd rfl hcsne
        | cons d ds =>
          refine ⟨cn, ?_, hsuf⟩
          rw [List.getLast?_cons_cons]
          exact hcn

/-! ## The adjacent-chunk overlap invariant of the whole splitter -/

theorem stws_good (sp : Splitter) (hov : 0 < sp.chunk_overlap)
    (hkeep : sp.keep_separator = true) :
    ∀ (seps : List Str) (text : Str), goodOut sp.chunk_overlap text (stws sp seps text) := by
  intro seps
  induction seps with
  | nil =>
    intro text
    refine ⟨List.chain'_singleton text, ?_, ?_, by simp [stws]⟩
    · intro h hh
      simp only [stws, List.head?_cons, Option.mem_def, Option.some_inj] at hh
      subst hh
      exact isPre_refl text
    · intro l hl
      simp only [stws, List.getLast?_singleton, Option.mem_def, Option.some_inj] at hl
      subst hl
      exact isSuf_refl text
  | cons sep rest ih =>
    intro text
    show goodOut sp.chunk_overlap text (stwsBody sp sep (stws sp rest) text)
    unfold stwsBody
    split
    · refine ⟨List.chain'_singleton text, ?_, ?_, by simp⟩
      · intro h hh
        simp only [List.head?_cons, Option.mem_def, Option.some_inj] at hh
        subst hh
        exact isPre_refl text
      · intro l hl
        simp only [List.getLast?_singleton, Option.mem_def, Option.some_inj] at hl
        subst hl
        exact isSuf_refl text
    · next hbig =>
      cases sep with
      | nil =>
        obtain ⟨hch, hhead, hlast⟩ := split_by_character_inv sp text
        refine ⟨hch.imp (fun a b => seedRel_overlapProp sp hov), hhead, hlast, ?_⟩
        apply split_by_character_ne_nil
        intro hnil
        subst hnil
        exact hbig (by simp [byteLen])
      | cons s ss =>
        simp only []
        have htext : (withSeps sp (s :: ss) (splitOnCore s ss text)).flatten = text := by
          rw [withSeps_flatten sp hkeep, splitOn_join]
        split
        · exact ih text
        · obtain ⟨mch, mhead, mlast⟩ := mergeSplits_inv sp hov (s :: ss) (splitOnCore s ss text)
          rw [htext] at mhead mlast
          split
          · next hcond =>
            exact ⟨mch.imp (fun a b => seedRel_overlapProp sp hov), mhead, mlast, hcond.1⟩
          · obtain ⟨rch, rne, rhead, rlast⟩ := reSplit_good sp hov (stws sp rest)
              sp.chunk_size ih (mergeSplits sp (s :: ss) (splitOnCore s ss text)) mch
              (mergeSplits_elems sp (s :: ss) (splitOnCore s ss text))
            split
            · exact ih text
            · next hguard =>
              push_neg at hguard
              refine ⟨rch, ?_, ?_, hguard.1⟩
              · intro h hh
                obtain ⟨c0, hc0, hpre⟩ := rhead h hh
                exact isPre_trans hpre (mhead c0 hc0)
              · intro l hl
                obtain ⟨cn, hcn, hsuf⟩ := rlast l hl
                exact isSuf_trans hsuf (mlast cn hcn)

end TextSplitter

/-- C7 counterexample: with separators ["x", "y", ""], size 5, overlap 3
(and the default `keep_separator = true`), the input "zzabyxcccc" splits
into ["zzaby", "ab", "abyxc", "yxccc", "cccc"]; for the adjacent pair
("zzaby", "ab") the earlier chunk has length 5 ≥ 3, but the last 3
characters of "zzaby" ("aby") do not equal the first 3 characters of "ab"
("ab" is only 2 characters long): the re-splitting of an oversized merged
chunk broke the overlap chain. -/
theorem claim7_counterexample :
    TextSplitter.split_text
      (((TextSplitter.new.with_separators [['x'], ['y'], []]).with_chunk_size
          5).with_chunk_overlap 3) "zzabyxcccc".toList =
      ["zzaby".toList, "ab".toList, "abyxc".toList, "yxccc".toList, "cccc".toList] ∧
    3 ≤ "zzaby".toList.length ∧
    "zzaby".toList.drop ("zzaby".toList.length - 3) ≠ "ab".toList.take 3 := by
  refine ⟨by decide, by decide, by decide⟩

/-- C7 amended: for every adjacent pair of chunks produced by `split_text`
with overlap `k > 0` and the (default) `keep_separator = true`, whenever
BOTH chunks have length at least `k` characters, the last `k` characters of
the earlier chunk equal the first `k` characters of the later chunk. (The
counterexample shows the later chunk can be shorter than `k`, in which case
the property fails as originally stated; with `keep_separator = false` the
suffix alignment is lost as well.) -/
theorem claim7_amended_adjacent_overlap (sp : TextSplitter.Splitter) (text : Str)
    (k : Nat) (hov : sp.chunk_overlap = k) (h0 : 0 < k)
    (hkeep : sp.keep_separator = true) :
    List.Chain' (fun a b => k ≤ a.length → k ≤ b.length →
      a.drop (a.length - k) = b.take k) (TextSplitter.split_text sp text) := by
  subst hov
  unfold TextSplitter.split_text
  split
  · exact List.chain'_singleton text
  · have h := TextSplitter.stws_good sp h0 hkeep sp.separators text
    exact h.1.imp (fun a b hp => hp)

/-- C7 amended witness: size 20, overlap 5, default separators. -/
theorem claim7_amended_witness :
    List.Chain' (fun a b => 5 ≤ a.length → 5 ≤ b.length →
      a.drop (a.length - 5) = b.take 5)
      (TextSplitter.split_text witnessSplitter witnessText) :=
  claim7_amended_adjacent_overlap witnessSplitter witnessText 5 rfl (by decide) rfl
